import Mathlib

/-!
Verification of the Sail Geometry Engine of the ShadeSailVisualiser repository.

The engine lives in `client/src/components/CanvasWorkspace.tsx` (path
simplifier, curved/mixed path builders, sail creation and edge rebuilding)
and `client/src/components/PerspectiveTransform.tsx` (perspective estimator).

Modelling conventions:
* JavaScript numbers are modelled as exact rationals (`ℚ`).
* The source calls `Math.sqrt` only to (a) compare a distance against a
  bound and (b) build unit vectors that are immediately rescaled by the same
  length.  Since `Real.sqrt` is strictly monotone on nonnegatives, every
  comparison `sqrt d <= b` is represented by the equivalent rational
  comparison (`b < 0` handling included where the sign of `b` is not fixed),
  and the unit-vector normalisations are cancelled exactly; each such spot is
  documented at the definition it concerns.  With that transformation the
  whole engine is exact rational arithmetic, so every definition below is
  computable and every concrete run can be checked by `decide`.
* The SVG path string built by the source (`pathCommands.join(' ')`) is
  modelled as the list `pathCommands` of structured commands; the empty
  string corresponds to the empty list.
-/

namespace ShadeSail

/-- 2D point, `{x, y}` in the source. -/
structure Pt where
  x : ℚ
  y : ℚ
deriving DecidableEq, Repr

/-- Default point used to totalise list indexing (the source never reads
out of range on the paths we verify). -/
def d0 : Pt := ⟨0, 0⟩

/-- Squared Euclidean distance between two points. -/
def distSq (p q : Pt) : ℚ := (p.x - q.x) ^ 2 + (p.y - q.y) ^ 2

/-- `sqrtGt dsq b` represents the source comparison `Math.sqrt dsq > b`
for a nonnegative radicand `dsq`: it holds iff `b < 0` or `b * b < dsq`. -/
def sqrtGt (dsq b : ℚ) : Prop := b < 0 ∨ b * b < dsq

instance (dsq b : ℚ) : Decidable (sqrtGt dsq b) :=
  inferInstanceAs (Decidable (_ ∨ _))

/-- From `perpendicularDistance` in CanvasWorkspace.tsx, returning the square
of the source's return value (the source returns `Math.sqrt` of this).
The source divides by `length * length` where `length = sqrt(dx*dx + dy*dy)`;
in exact arithmetic that denominator is `dx * dx + dy * dy`. -/
def perpendicularDistanceSq (point lineStart lineEnd : Pt) : ℚ :=
  let dx := lineEnd.x - lineStart.x
  let dy := lineEnd.y - lineStart.y
  if dx = 0 ∧ dy = 0 then
    -- line segment is actually a point
    let pointDx := point.x - lineStart.x
    let pointDy := point.y - lineStart.y
    pointDx * pointDx + pointDy * pointDy
  else
    let t := ((point.x - lineStart.x) * dx + (point.y - lineStart.y) * dy) /
      (dx * dx + dy * dy)
    let t := max 0 (min 1 t)
    let projectionX := lineStart.x + t * dx
    let projectionY := lineStart.y + t * dy
    let distanceX := point.x - projectionX
    let distanceY := point.y - projectionY
    distanceX * distanceX + distanceY * distanceY

/-- The scan `for (let i = 1; i < points.length - 1; i++)` of `simplifyPath`:
running maximum of the (squared) perpendicular distances together with the
index of its first attainer.  `i` is the index of the head of the remaining
list, `md`/`mi` the accumulator (`maxDistance`/`maxIndex`); the source
updates on the strict comparison `distance > maxDistance`, which on squared
values is the identical comparison. -/
def fmAux (s e : Pt) : List Pt → Nat → ℚ → Nat → ℚ × Nat
  | [], _, md, mi => (md, mi)
  | p :: rest, i, md, mi =>
    let d := perpendicularDistanceSq p s e
    if md < d then fmAux s e rest (i + 1) d i else fmAux s e rest (i + 1) md mi

/-- The interior points of a sequence: everything but the first and last. -/
def interiorPts (ps : List Pt) : List Pt := ps.tail.dropLast

/-- Maximum (squared) perpendicular distance of an interior point from the
segment joining the first and last points, with the index of its first
attainer; `(0, 0)` when no interior point beats the initial accumulator,
exactly as in the source (`maxDistance = 0; maxIndex = 0`). -/
def findMax (ps : List Pt) : ℚ × Nat :=
  fmAux (ps.headD d0) (ps.getLastD d0) (interiorPts ps) 1 0 0

/-- Fuel-indexed body of `simplifyPath` (Ramer-Douglas-Peucker).  The source
recurses on `points.slice(0, maxIndex + 1)` and `points.slice(maxIndex)` and
concatenates with the shared split point deduplicated.  The recursion guard
of the source is `maxDistance > tolerance` (a comparison of `sqrt` values,
represented via `sqrtGt`); the two index bounds `1 ≤ maxIndex` and
`maxIndex + 2 ≤ points.length` are consequences of that guard whenever
`0 ≤ tolerance` (lemma `findMax_bounds_of_pos` below).  For `tolerance < 0`
with all interior points on the chord the source recursion does not
terminate, so the model returns the endpoints there; all claims range over
the spec's input contract `tolerance ≥ 0`, where model and source agree.
Fuel `points.length` always suffices (lemma `simplifyAux_eq_of_le`). -/
def simplifyAux : Nat → List Pt → ℚ → List Pt
  | 0, ps, _ => ps
  | fuel + 1, ps, tol =>
    if ps.length ≤ 2 then ps
    else
      let m := findMax ps
      if sqrtGt m.1 tol ∧ 1 ≤ m.2 ∧ m.2 + 2 ≤ ps.length then
        simplifyAux fuel (ps.take (m.2 + 1)) tol ++
          (simplifyAux fuel (ps.drop m.2) tol).tail
      else [ps.headD d0, ps.getLastD d0]

/-- `simplifyPath` from CanvasWorkspace.tsx. -/
def simplifyPath (ps : List Pt) (tol : ℚ) : List Pt :=
  simplifyAux ps.length ps tol

/-! ## Path builders -/

/-- One SVG path command, as pushed onto `pathCommands` by the source
(`'M' x y`, `'L' x y`, `'Q' cx cy x y`, `'Z'`). -/
inductive PathCmd where
  | move (p : Pt)
  | line (p : Pt)
  | quad (control target : Pt)
  | close
deriving DecidableEq, Repr

/-- Polygon centroid, mean of all vertices (`points.reduce` then divide by
`points.length` in both path builders). -/
def centroidOf (ps : List Pt) : Pt :=
  ⟨(ps.map Pt.x).sum / ps.length, (ps.map Pt.y).sum / ps.length⟩

/-- 2D cross product of `a - o` and `b - o`. -/
def cross2 (o a b : Pt) : ℚ :=
  (a.x - o.x) * (b.y - o.y) - (a.y - o.y) * (b.x - o.x)

/-- `p` and `q` lie strictly on the same side of the oriented chord from
`cur` to `nxt`. -/
def sameSideOfChord (cur nxt p q : Pt) : Prop :=
  0 < cross2 cur nxt p * cross2 cur nxt q

/-- Loop body of `polygonToMixedPath` for edge `i` (from vertex `i` to vertex
`(i+1) % n`); `none` when the edge is skipped as degenerate.

The source works with `edgeLength = sqrt(edgeLenSq)`; in exact arithmetic:
* the skip test `edgeLength < 1` is `edgeLenSq < 1`;
* the unit normals are `(-ey, ex) / edgeLength` and `(ey, -ex) / edgeLength`,
  and `dist1 < dist2` (squared distances of `midpoint + normal` to the
  centroid) expands to
  `2 * ((m - c) ∙ n1) < 2 * ((m - c) ∙ n2) = -2 * ((m - c) ∙ n1)`,
  i.e. `(m - c) ∙ (-ey, ex) < 0` after multiplying by `edgeLength > 0`;
* the control point `midpoint + 2 * (edgeLength * sag) * inwardNormal`
  cancels `edgeLength` exactly: `midpoint + 2 * sag * (±(-ey), ±ex)`. -/
def mixedEdgeCmd (ps : List Pt) (centroid : Pt) (curvedEdges : List Bool)
    (sag : ℚ) (i : Nat) : Option PathCmd :=
  let currentPoint := ps.getD i d0
  let nextPoint := ps.getD ((i + 1) % ps.length) d0
  let shouldCurve := curvedEdges.getD i false
  let ex := nextPoint.x - currentPoint.x
  let ey := nextPoint.y - currentPoint.y
  let edgeLenSq := ex * ex + ey * ey
  if edgeLenSq < 1 then none
  else if shouldCurve then
    let mx := (currentPoint.x + nextPoint.x) / 2
    let my := (currentPoint.y + nextPoint.y) / 2
    let pickFirst := (mx - centroid.x) * (-ey) + (my - centroid.y) * ex < 0
    let nx : ℚ := if pickFirst then -ey else ey
    let ny : ℚ := if pickFirst then ex else -ex
    some (.quad ⟨mx + 2 * sag * nx, my + 2 * sag * ny⟩ nextPoint)
  else some (.line nextPoint)

/-- `polygonToMixedPath` from CanvasWorkspace.tsx (straight or curved edge per
flag, default sag 0.05 at call sites).  Returns the structured command list;
the source joins it into a string, with `''` for fewer than 3 points. -/
def polygonToMixedPath (ps : List Pt) (curvedEdges : List Bool) (sag : ℚ) :
    List PathCmd :=
  if ps.length < 3 then []
  else
    let centroid := centroidOf ps
    .move (ps.headD d0) ::
      ((List.range ps.length).filterMap (mixedEdgeCmd ps centroid curvedEdges sag)
        ++ [.close])

/-- Loop body of `polygonToCurvedPath` for edge `i`: as `mixedEdgeCmd` but
every edge is curved (the source duplicates the geometry verbatim). -/
def curvedEdgeCmd (ps : List Pt) (centroid : Pt) (sag : ℚ) (i : Nat) :
    Option PathCmd :=
  let currentPoint := ps.getD i d0
  let nextPoint := ps.getD ((i + 1) % ps.length) d0
  let ex := nextPoint.x - currentPoint.x
  let ey := nextPoint.y - currentPoint.y
  let edgeLenSq := ex * ex + ey * ey
  if edgeLenSq < 1 then none
  else
    let mx := (currentPoint.x + nextPoint.x) / 2
    let my := (currentPoint.y + nextPoint.y) / 2
    let pickFirst := (mx - centroid.x) * (-ey) + (my - centroid.y) * ex < 0
    let nx : ℚ := if pickFirst then -ey else ey
    let ny : ℚ := if pickFirst then ex else -ex
    some (.quad ⟨mx + 2 * sag * nx, my + 2 * sag * ny⟩ nextPoint)

/-- `polygonToCurvedPath` from CanvasWorkspace.tsx (all edges curved,
default sag 0.08). -/
def polygonToCurvedPath (ps : List Pt) (sag : ℚ) : List PathCmd :=
  if ps.length < 3 then []
  else
    let centroid := centroidOf ps
    .move (ps.headD d0) ::
      ((List.range ps.length).filterMap (curvedEdgeCmd ps centroid sag)
        ++ [.close])

/-! ## Interactive capture (handleMouseDown) -/

/-- Result of one click during freehand capture. -/
inductive CaptureResult where
  | closed (history : List Pt)
  | extended (history : List Pt)
deriving DecidableEq, Repr

/-- The point-placement decision of `handleMouseDown` in CanvasWorkspace.tsx:
with at least 3 captured points, a click within 15 pixels of the first point
triggers sail creation from the current history (`closed`); otherwise the
candidate is appended (`extended`).  The source comparison
`sqrt(distSq) <= 15` is the rational comparison `distSq <= 225`. -/
def handleMouseDown (history : List Pt) (candidate : Pt) : CaptureResult :=
  if 3 ≤ history.length ∧ distSq candidate (history.headD d0) ≤ 225 then
    .closed history
  else .extended (history ++ [candidate])

/-- Feed a list of clicks one at a time from an empty drawing session,
stopping at the first auto-close; returns the captured history and whether
auto-closure fired. -/
def captureRun (clicks : List Pt) : List Pt × Bool :=
  clicks.foldl
    (fun st c =>
      if st.2 then st
      else
        match handleMouseDown st.1 c with
        | .closed h => (h, true)
        | .extended h => (h, false))
    ([], false)

/-- Modelled from the spec: `segmentsIntersect` (spec section 4.2).  No
segment-intersection routine exists anywhere in the repository source; the
spec describes the standard parametric test with an epsilon of `1e-10` on the
denominator, which is reproduced here verbatim over `ℚ`. -/
def segmentsIntersect (a0 a1 b0 b1 : Pt) : Prop :=
  let d := (a1.x - a0.x) * (b1.y - b0.y) - (a1.y - a0.y) * (b1.x - b0.x)
  ¬(|d| ≤ 1 / 10 ^ 10) ∧
    (let t := ((b0.x - a0.x) * (b1.y - b0.y) - (b0.y - a0.y) * (b1.x - b0.x)) / d
     let u := ((b0.x - a0.x) * (a1.y - a0.y) - (b0.y - a0.y) * (a1.x - a0.x)) / d
     0 ≤ t ∧ t ≤ 1 ∧ 0 ≤ u ∧ u ≤ 1)

instance (a0 a1 b0 b1 : Pt) : Decidable (segmentsIntersect a0 a1 b0 b1) :=
  inferInstanceAs (Decidable (_ ∧ _))

/-- Modelled from the spec: `wouldAutoClose` (spec section 4.2) — true iff at
least 3 points are captured and the segment from the last captured point to
the candidate intersects some non-adjacent prior edge (every prior edge
except the one immediately preceding, i.e. edges `j` to `j+1` for
`j < history.length - 2`).  No such routine exists in the source. -/
def wouldAutoCloseSpec (candidate : Pt) (history : List Pt) : Prop :=
  3 ≤ history.length ∧
    ∃ j, j < history.length - 2 ∧
      segmentsIntersect (history.getLastD d0) candidate
        (history.getD j d0) (history.getD (j + 1) d0)

/-! ## Sail creation and modification -/

/-- `calculatePolygonArea` from CanvasWorkspace.tsx (shoelace formula,
absolute value, halved). -/
def calculatePolygonArea (ps : List Pt) : ℚ :=
  if ps.length < 3 then 0
  else
    |((List.range ps.length).map fun i =>
        (ps.getD i d0).x * (ps.getD ((i + 1) % ps.length) d0).y -
          (ps.getD ((i + 1) % ps.length) d0).x * (ps.getD i d0).y).sum| / 2

/-- The closing step of `createSailFromDrawnPath`: append a copy of the first
point when the endpoint gap exceeds the tolerance (`distanceToClose >
tolerance`, a `sqrt` comparison represented via `sqrtGt`). -/
def closeIfOpen (ps : List Pt) (tol : ℚ) : List Pt :=
  if sqrtGt (distSq (ps.getLastD d0) (ps.headD d0)) tol then
    ps ++ [ps.headD d0]
  else ps

/-- Kind tag stored on a sail (`sailType` in the source). -/
inductive SailType where
  | drawn
  | custom
  | standard
deriving DecidableEq, Repr

/-- Preset shape tag (`shapeType` in the source). -/
inductive SailShape where
  | triangle
  | square
  | rectangle
deriving DecidableEq, Repr

/-- The renderable sail object: the fabric `Path` plus the metadata the
source attaches to it (`sailPoints`, `curvedEdges`, `sailType`, `shapeType`)
and the placement properties read back by `modifyExistingSailEdges`.
Style fields (fill/stroke colour, opacity) are outside the modelled engine. -/
structure Sail where
  pathData : List PathCmd
  left : ℚ
  top : ℚ
  angle : ℚ
  scaleX : ℚ
  scaleY : ℚ
  sailPoints : List Pt
  curvedEdges : List Bool
  sailType : SailType
  shapeType : Option SailShape
deriving DecidableEq, Repr

/-- The canvas state the engine manipulates: the sails on the canvas (in
stacking order) and the in-progress drawing session's captured points. -/
structure CanvasState where
  sails : List Sail
  drawnPoints : List Pt
deriving DecidableEq, Repr

/-- `createSailFromDrawnPath` from CanvasWorkspace.tsx as a state transition
on the canvas state (points taken from the drawing session).  Every early
`return` of the source leaves the state unchanged; on success the new sail is
added and the drawing session is cleared.  New fabric `Path` objects carry
fabric's default placement (`left`/`top` as computed by fabric are not part
of the engine; modelled as 0 with unit scale and no rotation). -/
def createSailFromDrawnPath (st : CanvasState) (tol : ℚ) : CanvasState :=
  let points := st.drawnPoints
  if points.length < 3 then st
  else
    let simplified := simplifyPath points tol
    if simplified.length < 3 then st
    else
      let simplified :=
        if 12 < simplified.length then simplifyPath points (tol * 2)
        else simplified
      let simplified := closeIfOpen simplified tol
      if calculatePolygonArea simplified < 500 then st
      else if 10 ≤ st.sails.length then st
      else
        { sails := st.sails ++
            [{ pathData := polygonToCurvedPath simplified (1 / 20)
               left := 0, top := 0, angle := 0, scaleX := 1, scaleY := 1
               sailPoints := simplified
               curvedEdges := List.replicate (simplified.length - 1) true
               sailType := .drawn
               shapeType := none }]
          drawnPoints := [] }

/-- `modifyExistingSailEdges` from CanvasWorkspace.tsx.  `active` is the
index of the active object when that object is a sail; otherwise the most
recently added sail is used.  Returns `none` when no sail exists (the
source's `null`); otherwise the current sail is removed and a rebuilt sail —
with the stored `left`/`top`/`angle`/`scaleX`/`scaleY` restored and the same
`sailPoints`/`sailType`/`shapeType` — is appended and activated. -/
def modifyExistingSailEdges (st : CanvasState) (active : Option Nat)
    (newCurvedEdges : List Bool) : Option (CanvasState × Sail) :=
  let currentIdx? : Option Nat :=
    match active with
    | some i => if i < st.sails.length then some i else none
    | none => none
  let currentIdx? : Option Nat :=
    match currentIdx? with
    | some i => some i
    | none => if st.sails.isEmpty then none else some (st.sails.length - 1)
  match currentIdx? with
  | none => none
  | some k =>
    match st.sails[k]? with
    | none => none
    | some currentSail =>
      let newSail : Sail :=
        { pathData := polygonToMixedPath currentSail.sailPoints newCurvedEdges (1 / 20)
          left := currentSail.left, top := currentSail.top
          angle := currentSail.angle
          scaleX := currentSail.scaleX, scaleY := currentSail.scaleY
          sailPoints := currentSail.sailPoints
          curvedEdges := newCurvedEdges
          sailType := currentSail.sailType
          shapeType := currentSail.shapeType }
      some ({ sails := st.sails.eraseIdx k ++ [newSail]
              drawnPoints := st.drawnPoints }, newSail)

/-! ## Perspective estimator -/

/-- The values `applyPerspectiveTransform` writes onto the fabric object. -/
structure PerspectiveResult where
  left : ℚ
  top : ℚ
  scaleX : ℚ
  scaleY : ℚ
  skewX : ℚ
  skewY : ℚ
deriving DecidableEq, Repr

/-- `applyPerspectiveTransform` from PerspectiveTransform.tsx: corners in the
order top-left, top-right, bottom-left, bottom-right; `originalWidth` and
`originalHeight` from the object's bounding box.  Scale values are floored at
0.1 and skew values scaled by 45 exactly as in the source. -/
def applyPerspectiveTransform (topLeft topRight bottomLeft bottomRight : Pt)
    (originalWidth originalHeight : ℚ) : PerspectiveResult :=
  let topWidth := |topRight.x - topLeft.x|
  let bottomWidth := |bottomRight.x - bottomLeft.x|
  let leftHeight := |bottomLeft.y - topLeft.y|
  let rightHeight := |bottomRight.y - topRight.y|
  let skewX := ((topRight.x - topLeft.x) - (bottomRight.x - bottomLeft.x)) /
    originalHeight
  let skewY := ((bottomLeft.x - topLeft.x) - (bottomRight.x - topRight.x)) /
    originalWidth
  let scaleX := (topWidth + bottomWidth) / (2 * originalWidth)
  let scaleY := (leftHeight + rightHeight) / (2 * originalHeight)
  let centerX := (topLeft.x + topRight.x + bottomLeft.x + bottomRight.x) / 4
  let centerY := (topLeft.y + topRight.y + bottomLeft.y + bottomRight.y) / 4
  { left := centerX, top := centerY
    scaleX := max (1 / 10) scaleX, scaleY := max (1 / 10) scaleY
    skewX := skewX * 45, skewY := skewY * 45 }

/-- The four corners of the axis-aligned rectangle with top-left `(l, t)`,
width `w` and height `h`, in the order used by `getObjectCorners`. -/
def rectCorners (l t w h : ℚ) : Pt × Pt × Pt × Pt :=
  (⟨l, t⟩, ⟨l + w, t⟩, ⟨l, t + h⟩, ⟨l + w, t + h⟩)

/-! ## Simplifier: unfolding machinery -/

theorem simplifyAux_eq_of_le : ∀ (n f g : Nat) (ps : List Pt) (tol : ℚ),
    ps.length ≤ n → ps.length ≤ f → ps.length ≤ g →
    simplifyAux f ps tol = simplifyAux g ps tol := by
  intro n
  induction n with
  | zero =>
    intro f g ps tol hn _ _
    have hps : ps.length = 0 := Nat.le_zero.mp hn
    cases f <;> cases g <;>
      simp [simplifyAux, Nat.le_trans (Nat.le_of_eq hps) (by omega)]
  | succ n ih =>
    intro f g ps tol hn hf hg
    match f, g with
    | 0, 0 => rfl
    | 0, g' + 1 =>
      have hps : ps.length = 0 := Nat.le_zero.mp hf
      simp [simplifyAux, Nat.le_trans (Nat.le_of_eq hps) (by omega)]
    | f' + 1, 0 =>
      have hps : ps.length = 0 := Nat.le_zero.mp hg
      simp [simplifyAux, Nat.le_trans (Nat.le_of_eq hps) (by omega)]
    | f' + 1, g' + 1 =>
      simp only [simplifyAux]
      by_cases h2 : ps.length ≤ 2
      · simp [h2]
      · simp only [if_neg h2]
        by_cases hcond : sqrtGt (findMax ps).1 tol ∧ 1 ≤ (findMax ps).2 ∧
            (findMax ps).2 + 2 ≤ ps.length
        · simp only [if_pos hcond]
          obtain ⟨-, h1, hub⟩ := hcond
          have hlt : (ps.take ((findMax ps).2 + 1)).length ≤ ps.length - 1 := by
            simp [List.length_take]; omega
          have hld : (ps.drop (findMax ps).2).length ≤ ps.length - 1 := by
            simp [List.length_drop]; omega
          rw [ih f' g' _ tol (by omega) (by omega) (by omega),
            ih f' g' _ tol (by omega) (by omega) (by omega)]
        · simp [if_neg hcond]

/-- One-step unfolding of `simplifyPath` in terms of itself. -/
theorem simplifyPath_eq (ps : List Pt) (tol : ℚ) :
    simplifyPath ps tol =
      if ps.length ≤ 2 then ps
      else
        if sqrtGt (findMax ps).1 tol ∧ 1 ≤ (findMax ps).2 ∧
            (findMax ps).2 + 2 ≤ ps.length then
          simplifyPath (ps.take ((findMax ps).2 + 1)) tol ++
            (simplifyPath (ps.drop (findMax ps).2) tol).tail
        else [ps.headD d0, ps.getLastD d0] := by
  by_cases h2 : ps.length ≤ 2
  · rw [if_pos h2]
    unfold simplifyPath
    cases hf : ps.length with
    | zero => simp [simplifyAux]
    | succ l =>
      have : ps.length ≤ 2 := h2
      simp only [simplifyAux, if_pos this]
  · rw [if_neg h2]
    have hl : ps.length = (ps.length - 1) + 1 := by omega
    unfold simplifyPath
    conv_lhs => rw [hl]
    simp only [simplifyAux]
    rw [if_neg h2]
    by_cases hcond : sqrtGt (findMax ps).1 tol ∧ 1 ≤ (findMax ps).2 ∧
        (findMax ps).2 + 2 ≤ ps.length
    · rw [if_pos hcond, if_pos hcond]
      obtain ⟨-, h1, hub⟩ := hcond
      have hlt : (ps.take ((findMax ps).2 + 1)).length ≤ ps.length - 1 := by
        simp [List.length_take]; omega
      have hld : (ps.drop (findMax ps).2).length ≤ ps.length - 1 := by
        simp [List.length_drop]; omega
      rw [simplifyAux_eq_of_le (ps.length - 1) (ps.length - 1)
          (ps.take ((findMax ps).2 + 1)).length (ps.take ((findMax ps).2 + 1)) tol
          (by omega) (by omega) (by omega),
        simplifyAux_eq_of_le (ps.length - 1) (ps.length - 1)
          (ps.drop (findMax ps).2).length (ps.drop (findMax ps).2) tol
          (by omega) (by omega) (by omega)]
    · rw [if_neg hcond, if_neg hcond]

theorem simplifyPath_of_short {ps : List Pt} (tol : ℚ) (h : ps.length ≤ 2) :
    simplifyPath ps tol = ps := by
  rw [simplifyPath_eq, if_pos h]

/-! ## Perpendicular distance facts -/

theorem perpendicularDistanceSq_nonneg (p a b : Pt) :
    0 ≤ perpendicularDistanceSq p a b := by
  simp only [perpendicularDistanceSq]
  split <;> exact add_nonneg (mul_self_nonneg _) (mul_self_nonneg _)

theorem perpendicularDistanceSq_left (a b : Pt) :
    perpendicularDistanceSq a a b = 0 := by
  simp only [perpendicularDistanceSq]
  split
  · ring
  · rw [show (a.x - a.x) * (b.x - a.x) + (a.y - a.y) * (b.y - a.y) = 0 by ring,
      zero_div,
      show ((1 : ℚ) ⊓ 0) = 0 from min_eq_right (by norm_num),
      show ((0 : ℚ) ⊔ 0) = 0 from max_self 0]
    ring

theorem perpendicularDistanceSq_right (a b : Pt) :
    perpendicularDistanceSq b a b = 0 := by
  simp only [perpendicularDistanceSq]
  split
  · rename_i h
    rw [h.1, h.2]; ring
  · rename_i h
    have hden : (b.x - a.x) * (b.x - a.x) + (b.y - a.y) * (b.y - a.y) ≠ 0 := by
      intro hz
      exact h ⟨by nlinarith [mul_self_nonneg (b.x - a.x), mul_self_nonneg (b.y - a.y)],
        by nlinarith [mul_self_nonneg (b.x - a.x), mul_self_nonneg (b.y - a.y)]⟩
    rw [div_self hden,
      show ((1 : ℚ) ⊓ 1) = 1 from min_self 1,
      show ((0 : ℚ) ⊔ 1) = 1 from max_eq_right (by norm_num)]
    ring

/-! ## The maximum-distance scan -/

theorem fmAux_spec (s e : Pt) : ∀ (l : List Pt) (i : Nat) (md : ℚ) (mi : Nat),
    (fmAux s e l i md mi = (md, mi) ∧
      ∀ p ∈ l, perpendicularDistanceSq p s e ≤ md) ∨
    (∃ l₁ q l₂, l = l₁ ++ q :: l₂ ∧
      fmAux s e l i md mi = (perpendicularDistanceSq q s e, i + l₁.length) ∧
      md < perpendicularDistanceSq q s e ∧
      (∀ p ∈ l₁, perpendicularDistanceSq p s e < perpendicularDistanceSq q s e) ∧
      (∀ p ∈ l₂, perpendicularDistanceSq p s e ≤ perpendicularDistanceSq q s e)) := by
  intro l
  induction l with
  | nil => intro i md mi; left; exact ⟨rfl, by simp⟩
  | cons p rest ih =>
    intro i md mi
    by_cases hup : md < perpendicularDistanceSq p s e
    · rw [show fmAux s e (p :: rest) i md mi =
          fmAux s e rest (i + 1) (perpendicularDistanceSq p s e) i by
        simp [fmAux, hup]]
      rcases ih (i + 1) (perpendicularDistanceSq p s e) i with ⟨he, hall⟩ | h
      · right
        refine ⟨[], p, rest, by simp, ?_, hup, by simp, hall⟩
        simpa using he
      · obtain ⟨l₁, q, l₂, hrest, hres, hlt, hfirst, hlast⟩ := h
        right
        refine ⟨p :: l₁, q, l₂, by simp [hrest], ?_, lt_trans hup hlt, ?_, hlast⟩
        · rw [hres]; simp; omega
        · intro p' hp'
          rcases List.mem_cons.mp hp' with rfl | hp'
          · exact hlt
          · exact hfirst p' hp'
    · rw [show fmAux s e (p :: rest) i md mi = fmAux s e rest (i + 1) md mi by
        simp [fmAux, hup]]
      push_neg at hup
      rcases ih (i + 1) md mi with ⟨he, hall⟩ | h
      · left
        refine ⟨he, ?_⟩
        intro p' hp'
        rcases List.mem_cons.mp hp' with rfl | hp'
        · exact hup
        · exact hall p' hp'
      · obtain ⟨l₁, q, l₂, hrest, hres, hlt, hfirst, hlast⟩ := h
        right
        refine ⟨p :: l₁, q, l₂, by simp [hrest], ?_, hlt, ?_, hlast⟩
        · rw [hres]; simp; omega
        · intro p' hp'
          rcases List.mem_cons.mp hp' with rfl | hp'
          · exact lt_of_le_of_lt hup hlt
          · exact hfirst p' hp'

theorem fmAux_append (s e : Pt) : ∀ (l₁ l₂ : List Pt) (i : Nat) (md : ℚ) (mi : Nat),
    fmAux s e (l₁ ++ l₂) i md mi =
      fmAux s e l₂ (i + l₁.length) (fmAux s e l₁ i md mi).1
        (fmAux s e l₁ i md mi).2 := by
  intro l₁
  induction l₁ with
  | nil => intro l₂ i md mi; simp [fmAux]
  | cons p rest ih =>
    intro l₂ i md mi
    simp only [List.cons_append, fmAux, List.append_eq, List.length_cons]
    split <;>
      rw [ih, show i + (rest.length + 1) = i + 1 + rest.length by omega]

theorem fmAux_no_update (s e : Pt) : ∀ (l : List Pt) (i : Nat) (md : ℚ) (mi : Nat),
    (∀ p ∈ l, perpendicularDistanceSq p s e ≤ md) →
    fmAux s e l i md mi = (md, mi) := by
  intro l
  induction l with
  | nil => intro i md mi _; rfl
  | cons p rest ih =>
    intro i md mi hall
    have hp : perpendicularDistanceSq p s e ≤ md := hall p (by simp)
    rw [show fmAux s e (p :: rest) i md mi = fmAux s e rest (i + 1) md mi by
      simp [fmAux, not_lt.mpr hp]]
    exact ih (i + 1) md mi fun p' hp' => hall p' (by simp [hp'])

/-! ## List helpers -/

theorem headD_append_left {α : Type} (l l' : List α) (d : α) (h : l ≠ []) :
    (l ++ l').headD d = l.headD d := by
  cases l with
  | nil => exact absurd rfl h
  | cons a t => rfl

theorem cons_headD_tail {α : Type} (l : List α) (d : α) (h : l ≠ []) :
    l.headD d :: l.tail = l := by
  cases l with
  | nil => exact absurd rfl h
  | cons a t => rfl

theorem getLastD_of_ne_nil {α : Type} (l : List α) (d d' : α) (h : l ≠ []) :
    l.getLastD d = l.getLastD d' := by
  rw [List.getLastD_eq_getLast?, List.getLastD_eq_getLast?]
  cases hgl : l.getLast? with
  | none => exact absurd (List.getLast?_eq_none_iff.mp hgl) h
  | some x => rfl

theorem getLastD_append_right {α : Type} (l l' : List α) (d : α) (h : l' ≠ []) :
    (l ++ l').getLastD d = l'.getLastD d := by
  rw [List.getLastD_eq_getLast?, List.getLastD_eq_getLast?,
    List.getLast?_append_of_ne_nil l h]

theorem getLastD_tail {α : Type} (l : List α) (d : α) (h : 2 ≤ l.length) :
    l.tail.getLastD d = l.getLastD d := by
  cases l with
  | nil => simp at h
  | cons a t =>
    have ht : t ≠ [] := by
      intro he; subst he; simp at h
    rw [List.tail_cons, List.getLastD_cons]
    exact getLastD_of_ne_nil t d a ht

theorem headD_take {α : Type} (l : List α) (d : α) (k : Nat) (h : 1 ≤ k) :
    (l.take k).headD d = l.headD d := by
  cases l with
  | nil => simp
  | cons a t =>
    cases k with
    | zero => omega
    | succ n => rfl

theorem getLast?_drop_eq {α : Type} (l : List α) (k : Nat) (h : k < l.length) :
    (l.drop k).getLast? = l.getLast? := by
  induction k generalizing l with
  | zero => simp
  | succ n ih =>
    cases l with
    | nil => simp at h
    | cons a t =>
      rw [List.drop_succ_cons, ih t (by simpa using h)]
      have ht : t ≠ [] := by intro he; subst he; simp at h
      rw [List.getLast?_cons]
      cases hgl : t.getLast? with
      | none => exact absurd (List.getLast?_eq_none_iff.mp hgl) ht
      | some x => simp

theorem getLastD_drop {α : Type} (l : List α) (d : α) (k : Nat) (h : k < l.length) :
    (l.drop k).getLastD d = l.getLastD d := by
  rw [List.getLastD_eq_getLast?, List.getLastD_eq_getLast?, getLast?_drop_eq l k h]

theorem sublist_of_cons_sublist_cons' {α : Type} {a b : α} {l₁ l₂ : List α}
    (h : (a :: l₁).Sublist (b :: l₂)) : l₁.Sublist l₂ := by
  cases h
  case cons h2 => exact (List.sublist_cons_self a l₁).trans h2
  case cons₂ h2 => exact h2

theorem interiorPts_cons_append (a b : Pt) (xs : List Pt) :
    interiorPts (a :: (xs ++ [b])) = xs := by
  simp [interiorPts]

theorem eq_head_interior_last {ps : List Pt} (h : 2 ≤ ps.length) :
    ps = ps.headD d0 :: (interiorPts ps ++ [ps.getLastD d0]) := by
  cases ps with
  | nil => simp at h
  | cons p rest =>
    have hr : rest ≠ [] := by
      intro he; subst he; simp at h
    have hlast : (p :: rest).getLastD d0 = rest.getLast hr := by
      rw [List.getLastD_cons, List.getLastD_eq_getLast?,
        List.getLast?_eq_getLast rest hr]
      rfl
    rw [hlast]
    simp only [List.headD_cons, interiorPts, List.tail_cons]
    exact congrArg (p :: ·) (List.dropLast_append_getLast hr).symm

theorem fmAux_fst_lt (s e : Pt) {D : ℚ} :
    ∀ (l : List Pt) (i : Nat) (md : ℚ) (mi : Nat),
    (∀ p ∈ l, perpendicularDistanceSq p s e < D) → md < D →
    (fmAux s e l i md mi).1 < D := by
  intro l
  induction l with
  | nil => intro i md mi _ hmd; exact hmd
  | cons p rest ih =>
    intro i md mi hall hmd
    simp only [fmAux]
    split
    · exact ih (i + 1) _ i (fun p' hp' => hall p' (by simp [hp'])) (hall p (by simp))
    · exact ih (i + 1) md mi (fun p' hp' => hall p' (by simp [hp'])) hmd

/-- Structural facts about `simplifyPath`, proved together by strong
induction on the input length: the output is a subsequence, keeps the first
and last points, and has at least 2 points whenever the input does. -/
theorem simplify_basic : ∀ (n : Nat) (ps : List Pt) (tol : ℚ), ps.length ≤ n →
    (simplifyPath ps tol).Sublist ps ∧
    (simplifyPath ps tol).headD d0 = ps.headD d0 ∧
    (simplifyPath ps tol).getLastD d0 = ps.getLastD d0 ∧
    (2 ≤ ps.length → 2 ≤ (simplifyPath ps tol).length) := by
  intro n
  induction n with
  | zero =>
    intro ps tol hn
    cases ps with
    | nil =>
      rw [simplifyPath_of_short tol (by simp)]
      exact ⟨List.Sublist.refl _, rfl, rfl, by intro h; simp at h⟩
    | cons p rest => simp at hn
  | succ n ih =>
    intro ps tol hn
    rw [simplifyPath_eq]
    by_cases h2 : ps.length ≤ 2
    · rw [if_pos h2]
      exact ⟨List.Sublist.refl _, rfl, rfl, fun h => h⟩
    · rw [if_neg h2]
      by_cases hc : sqrtGt (findMax ps).1 tol ∧ 1 ≤ (findMax ps).2 ∧
          (findMax ps).2 + 2 ≤ ps.length
      · rw [if_pos hc]
        obtain ⟨-, h1, hub⟩ := hc
        have hlenT : (ps.take ((findMax ps).2 + 1)).length = (findMax ps).2 + 1 := by
          simp [List.length_take]; omega
        have hlenD : (ps.drop (findMax ps).2).length = ps.length - (findMax ps).2 := by
          simp
        obtain ⟨subL, headL, lastL, lenL⟩ :=
          ih (ps.take ((findMax ps).2 + 1)) tol (by omega)
        obtain ⟨subR, headR, lastR, lenR⟩ :=
          ih (ps.drop (findMax ps).2) tol (by omega)
        have hLlen : 2 ≤ (simplifyPath (ps.take ((findMax ps).2 + 1)) tol).length :=
          lenL (by omega)
        have hRlen : 2 ≤ (simplifyPath (ps.drop (findMax ps).2) tol).length :=
          lenR (by omega)
        have hLne : simplifyPath (ps.take ((findMax ps).2 + 1)) tol ≠ [] := by
          intro h; rw [h] at hLlen; simp at hLlen
        have hRne : simplifyPath (ps.drop (findMax ps).2) tol ≠ [] := by
          intro h; rw [h] at hRlen; simp at hRlen
        have hkd : (findMax ps).2 < ps.length := by omega
        have hdc : ps.drop (findMax ps).2 =
            ps[(findMax ps).2] :: ps.drop ((findMax ps).2 + 1) :=
          List.drop_eq_getElem_cons hkd
        have hRcons : simplifyPath (ps.drop (findMax ps).2) tol =
            (simplifyPath (ps.drop (findMax ps).2) tol).headD d0 ::
              (simplifyPath (ps.drop (findMax ps).2) tol).tail :=
          (cons_headD_tail _ d0 hRne).symm
        have hsubRt : (simplifyPath (ps.drop (findMax ps).2) tol).tail.Sublist
            (ps.drop ((findMax ps).2 + 1)) := by
          apply sublist_of_cons_sublist_cons'
            (a := (simplifyPath (ps.drop (findMax ps).2) tol).headD d0)
            (b := ps[(findMax ps).2])
          rw [← hRcons, ← hdc]
          exact subR
        have hRtne : (simplifyPath (ps.drop (findMax ps).2) tol).tail ≠ [] := by
          intro h
          have := congrArg List.length h
          simp [List.length_tail] at this
          omega
        refine ⟨?_, ?_, ?_, ?_⟩
        · have hs := List.Sublist.append subL hsubRt
          rwa [List.take_append_drop] at hs
        · rw [headD_append_left _ _ _ hLne, headL,
            headD_take ps d0 ((findMax ps).2 + 1) (by omega)]
        · rw [getLastD_append_right _ _ _ hRtne, getLastD_tail _ d0 hRlen, lastR,
            getLastD_drop ps d0 (findMax ps).2 hkd]
        · intro _
          rw [List.length_append]
          omega
      · rw [if_neg hc]
        have h2' : 2 ≤ ps.length := by omega
        have hdec := eq_head_interior_last h2'
        refine ⟨?_, rfl, ?_, ?_⟩
        · have hstep : ([ps.headD d0, ps.getLastD d0]).Sublist
              (ps.headD d0 :: (interiorPts ps ++ [ps.getLastD d0])) :=
            List.Sublist.cons₂ _ (List.sublist_append_right _ _)
          have hfin : (ps.headD d0 :: (interiorPts ps ++ [ps.getLastD d0])).Sublist ps := by
            rw [← hdec]
          exact hstep.trans hfin
        · rfl
        · intro _; simp

theorem sqrtGt_anti {d t1 t2 : ℚ} (h12 : t1 ≤ t2) (h : sqrtGt d t2) : sqrtGt d t1 := by
  rcases h with h | h
  · left; linarith
  · by_cases ht1 : t1 < 0
    · left; exact ht1
    · push_neg at ht1; right; nlinarith

/-- A larger tolerance never yields more points, by strong induction on the
input length: the split index of the recursion does not depend on the
tolerance, so the recursion tree of the larger tolerance is a pruning of the
smaller one's. -/
theorem simplify_length_anti : ∀ (n : Nat) (ps : List Pt) (t1 t2 : ℚ),
    ps.length ≤ n → t1 ≤ t2 →
    (simplifyPath ps t2).length ≤ (simplifyPath ps t1).length := by
  intro n
  induction n with
  | zero =>
    intro ps t1 t2 hn h12
    have h0 : ps.length ≤ 2 := by omega
    rw [simplifyPath_of_short t1 h0, simplifyPath_of_short t2 h0]
  | succ n ih =>
    intro ps t1 t2 hn h12
    rw [simplifyPath_eq ps t1, simplifyPath_eq ps t2]
    by_cases h2 : ps.length ≤ 2
    · rw [if_pos h2, if_pos h2]
    · rw [if_neg h2, if_neg h2]
      by_cases hc1 : sqrtGt (findMax ps).1 t1 ∧ 1 ≤ (findMax ps).2 ∧
          (findMax ps).2 + 2 ≤ ps.length
      · rw [if_pos hc1]
        obtain ⟨-, h1, hub⟩ := hc1
        have hlenT : (ps.take ((findMax ps).2 + 1)).length = (findMax ps).2 + 1 := by
          simp [List.length_take]; omega
        have hlenD : (ps.drop (findMax ps).2).length = ps.length - (findMax ps).2 := by
          simp
        by_cases hc2 : sqrtGt (findMax ps).1 t2 ∧ 1 ≤ (findMax ps).2 ∧
            (findMax ps).2 + 2 ≤ ps.length
        · rw [if_pos hc2]
          have hL := ih (ps.take ((findMax ps).2 + 1)) t1 t2 (by omega) h12
          have hR := ih (ps.drop (findMax ps).2) t1 t2 (by omega) h12
          have hRlen1 : 2 ≤ (simplifyPath (ps.drop (findMax ps).2) t1).length :=
            (simplify_basic (ps.drop (findMax ps).2).length _ t1 le_rfl).2.2.2 (by omega)
          simp only [List.length_append, List.length_tail]
          omega
        · rw [if_neg hc2]
          have hLlen1 : 2 ≤ (simplifyPath (ps.take ((findMax ps).2 + 1)) t1).length :=
            (simplify_basic (ps.take ((findMax ps).2 + 1)).length _ t1 le_rfl).2.2.2
              (by omega)
          have hRlen1 : 2 ≤ (simplifyPath (ps.drop (findMax ps).2) t1).length :=
            (simplify_basic (ps.drop (findMax ps).2).length _ t1 le_rfl).2.2.2 (by omega)
          simp only [List.length_append, List.length_tail, List.length_cons,
            List.length_nil]
          omega
      · rw [if_neg hc1]
        have hc2 : ¬(sqrtGt (findMax ps).1 t2 ∧ 1 ≤ (findMax ps).2 ∧
            (findMax ps).2 + 2 ≤ ps.length) := by
          intro ⟨hg, hb⟩
          exact hc1 ⟨sqrtGt_anti h12 hg, hb⟩
        rw [if_neg hc2]

/-- Positional characterisation of `findMax`: either no interior point beats
the zero accumulator, or the interior splits around the first attainer `q`
of the maximum, every point left of it strictly below, every point right of
it at most the maximum. -/
theorem findMax_cases (ps : List Pt) :
    (findMax ps = (0, 0) ∧
      ∀ p ∈ interiorPts ps,
        perpendicularDistanceSq p (ps.headD d0) (ps.getLastD d0) ≤ 0) ∨
    (∃ l₁ q l₂, interiorPts ps = l₁ ++ q :: l₂ ∧
      findMax ps =
        (perpendicularDistanceSq q (ps.headD d0) (ps.getLastD d0), 1 + l₁.length) ∧
      0 < perpendicularDistanceSq q (ps.headD d0) (ps.getLastD d0) ∧
      (∀ p ∈ l₁, perpendicularDistanceSq p (ps.headD d0) (ps.getLastD d0) <
        perpendicularDistanceSq q (ps.headD d0) (ps.getLastD d0)) ∧
      (∀ p ∈ l₂, perpendicularDistanceSq p (ps.headD d0) (ps.getLastD d0) ≤
        perpendicularDistanceSq q (ps.headD d0) (ps.getLastD d0))) := by
  rcases fmAux_spec (ps.headD d0) (ps.getLastD d0) (interiorPts ps) 1 0 0 with
    ⟨he, hall⟩ | ⟨l₁, q, l₂, hsplit, hres, hpos, hfirst, hlast⟩
  · left; exact ⟨he, hall⟩
  · right; exact ⟨l₁, q, l₂, hsplit, hres, hpos, hfirst, hlast⟩

/-- Simplification is idempotent (for tolerances in the input contract),
by strong induction on the input length.  The key invariant: the output's
interior points strictly left of the split point all have distance strictly
below the maximum, the split point is retained with exactly the maximum, and
everything right of it is at most the maximum — so re-running the scan on
the output finds the same maximum at the position of the same split point. -/
theorem simplify_idem_aux : ∀ (n : Nat) (ps : List Pt) (tol : ℚ),
    ps.length ≤ n → 0 ≤ tol →
    simplifyPath (simplifyPath ps tol) tol = simplifyPath ps tol := by
  intro n
  induction n with
  | zero =>
    intro ps tol hn htol
    have h0 : ps.length ≤ 2 := by omega
    rw [simplifyPath_of_short tol h0, simplifyPath_of_short tol h0]
  | succ n ih =>
    intro ps tol hn htol
    by_cases h2 : ps.length ≤ 2
    · rw [simplifyPath_of_short tol h2, simplifyPath_of_short tol h2]
    · rw [simplifyPath_eq ps tol]
      rw [if_neg h2]
      by_cases hc : sqrtGt (findMax ps).1 tol ∧ 1 ≤ (findMax ps).2 ∧
          (findMax ps).2 + 2 ≤ ps.length
      · rw [if_pos hc]
        obtain ⟨hgt, h1, hub⟩ := hc
        rcases findMax_cases ps with ⟨hfm, -⟩ |
          ⟨l₁, q, l₂, hint, hfm, hqpos, hfirst, hlast⟩
        · rw [hfm] at h1; simp at h1
        have h2' : 2 ≤ ps.length := by omega
        have hdec := eq_head_interior_last h2'
        set s := ps.headD d0 with hs
        set e := ps.getLastD d0 with he
        have hps : ps = (s :: l₁) ++ q :: (l₂ ++ [e]) := by
          conv_lhs => rw [hdec]
          rw [hint]; simp
        have hlen_ps : ps.length = l₁.length + l₂.length + 3 := by
          conv_lhs => rw [hps]
          simp; omega
        have hk2 : (findMax ps).2 = 1 + l₁.length := by rw [hfm]
        have hD1 : (findMax ps).1 = perpendicularDistanceSq q s e := by rw [hfm]
        have htake : ps.take ((findMax ps).2 + 1) = (s :: l₁) ++ [q] := by
          rw [hk2, show 1 + l₁.length + 1 = (s :: l₁).length + 1 by simp; omega]
          conv_lhs => rw [hps]
          rw [List.take_append 1]
          rfl
        have hdrop : ps.drop (findMax ps).2 = q :: (l₂ ++ [e]) := by
          rw [hk2, show 1 + l₁.length = (s :: l₁).length + 0 by simp; omega]
          conv_lhs => rw [hps]
          rw [List.drop_append 0]
          rfl
        have hIHA := ih (ps.take ((findMax ps).2 + 1)) tol
          (by rw [htake]; simp; omega) htol
        have hIHB := ih (ps.drop (findMax ps).2) tol
          (by rw [hdrop]; simp; omega) htol
        obtain ⟨subL, headL, lastL, lenL⟩ :=
          simplify_basic (ps.take ((findMax ps).2 + 1)).length
            (ps.take ((findMax ps).2 + 1)) tol le_rfl
        obtain ⟨subR, headR, lastR, lenR⟩ :=
          simplify_basic (ps.drop (findMax ps).2).length
            (ps.drop (findMax ps).2) tol le_rfl
        have hLlen : 2 ≤ (simplifyPath (ps.take ((findMax ps).2 + 1)) tol).length :=
          lenL (by rw [htake]; simp)
        have hRlen : 2 ≤ (simplifyPath (ps.drop (findMax ps).2) tol).length :=
          lenR (by rw [hdrop]; simp)
        have hAhead : (ps.take ((findMax ps).2 + 1)).headD d0 = s := by
          rw [htake]; rfl
        have hAlast : (ps.take ((findMax ps).2 + 1)).getLastD d0 = q := by
          rw [htake, getLastD_append_right _ _ _ (by simp)]; rfl
        have hBhead : (ps.drop (findMax ps).2).headD d0 = q := by
          rw [hdrop]; rfl
        have hBlast : (ps.drop (findMax ps).2).getLastD d0 = e := by
          rw [hdrop, List.getLastD_cons,
            getLastD_of_ne_nil _ q d0 (by simp),
            getLastD_append_right _ _ _ (by simp)]
          rfl
        set L := simplifyPath (ps.take ((findMax ps).2 + 1)) tol with hLdef
        set R := simplifyPath (ps.drop (findMax ps).2) tol with hRdef
        have hLdec : L = s :: (interiorPts L ++ [q]) := by
          have hd := eq_head_interior_last hLlen
          rw [headL, hAhead, lastL, hAlast] at hd
          exact hd
        have hRdec : R = q :: (interiorPts R ++ [e]) := by
          have hd := eq_head_interior_last hRlen
          rw [headR, hBhead, lastR, hBlast] at hd
          exact hd
        set IL := interiorPts L with hILdef
        set IR := interiorPts R with hIRdef
        have hheadlt : ∀ p ∈ s :: l₁, perpendicularDistanceSq p s e <
            perpendicularDistanceSq q s e := by
          intro p hp
          rcases List.mem_cons.mp hp with rfl | hp
          · rw [perpendicularDistanceSq_left]; exact hqpos
          · exact hfirst p hp
        have hIntL : ∀ p ∈ IL, perpendicularDistanceSq p s e <
            perpendicularDistanceSq q s e := by
          intro p hp
          have hpL : p ∈ L :=
            (List.tail_sublist L).subset (List.mem_of_mem_dropLast hp)
          have hpA : p ∈ (s :: l₁) ++ [q] := by
            rw [← htake]; exact subL.subset hpL
          rcases List.mem_append.mp hpA with hp1 | hp1
          · exact hheadlt p hp1
          · exfalso
            have hpq : p = q := by simpa using hp1
            subst hpq
            have hnot : p ∉ s :: l₁ := by
              intro hmem
              exact absurd (hheadlt p hmem) (lt_irrefl _)
            have hup : L.count p ≤ ((s :: l₁) ++ [p]).count p := by
              rw [← htake] at *
              exact subL.count_le p
            rw [List.count_append, List.count_eq_zero.mpr hnot] at hup
            simp at hup
            have hdown : 2 ≤ L.count p := by
              rw [hLdec, List.count_cons, List.count_append]
              have h1p : 1 ≤ IL.count p := List.count_pos_iff.mpr hp
              have : (1 : Nat) ≤ [p].count p := by simp
              omega
            omega
        have hIntR : ∀ p ∈ IR, perpendicularDistanceSq p s e ≤
            perpendicularDistanceSq q s e := by
          intro p hp
          have hpR : p ∈ R :=
            (List.tail_sublist R).subset (List.mem_of_mem_dropLast hp)
          have hpB : p ∈ q :: (l₂ ++ [e]) := by
            rw [← hdrop]; exact subR.subset hpR
          rcases List.mem_cons.mp hpB with rfl | hp1
          · exact le_rfl
          rcases List.mem_append.mp hp1 with hp2 | hp2
          · exact hlast p hp2
          · have hpe : p = e := by simpa using hp2
            subst hpe
            rw [perpendicularDistanceSq_right]
            exact le_of_lt hqpos
        have hRtail : R.tail = IR ++ [e] := by
          conv_lhs => rw [hRdec]
          rfl
        have hO : L ++ R.tail = s :: ((IL ++ q :: IR) ++ [e]) := by
          rw [hRtail]
          conv_lhs => rw [hLdec]
          simp
        have hOint : interiorPts (L ++ R.tail) = IL ++ q :: IR := by
          rw [hO]
          exact interiorPts_cons_append _ _ _
        have hOhead : (L ++ R.tail).headD d0 = s := by rw [hO]; rfl
        have hOlast : (L ++ R.tail).getLastD d0 = e := by
          rw [hO, List.getLastD_cons, getLastD_of_ne_nil _ s d0 (by simp),
            getLastD_append_right _ _ _ (by simp)]
          rfl
        have hOlen : (L ++ R.tail).length = IL.length + IR.length + 3 := by
          rw [hO]
          simp only [List.length_cons, List.length_append, List.length_nil]
          omega
        have hfmO : findMax (L ++ R.tail) =
            (perpendicularDistanceSq q s e, 1 + IL.length) := by
          unfold findMax
          rw [hOhead, hOlast, hOint, fmAux_append]
          have ha1 : (fmAux s e IL 1 0 0).1 < perpendicularDistanceSq q s e :=
            fmAux_fst_lt s e IL 1 0 0 hIntL hqpos
          have hstep : fmAux s e (q :: IR) (1 + IL.length)
              (fmAux s e IL 1 0 0).1 (fmAux s e IL 1 0 0).2 =
              fmAux s e IR (1 + IL.length + 1) (perpendicularDistanceSq q s e)
                (1 + IL.length) := by
            simp only [fmAux]
            rw [if_pos ha1]
          rw [hstep, fmAux_no_update s e IR _ _ _ hIntR]
        have hOtake : (L ++ R.tail).take ((findMax (L ++ R.tail)).2 + 1) = L := by
          rw [hfmO]
          show (L ++ R.tail).take (1 + IL.length + 1) = L
          rw [show 1 + IL.length + 1 = L.length by rw [hLdec]; simp [hILdef]; omega]
          exact List.take_left L R.tail
        have hOdrop : (L ++ R.tail).drop (findMax (L ++ R.tail)).2 = R := by
          rw [hfmO]
          show (L ++ R.tail).drop (1 + IL.length) = R
          conv_lhs => rw [hLdec]
          rw [show (s :: (IL ++ [q])) ++ R.tail = (s :: IL) ++ ([q] ++ R.tail) by
            simp]
          rw [show 1 + IL.length = (s :: IL).length + 0 by simp; omega]
          rw [List.drop_append 0]
          show q :: R.tail = R
          conv_rhs => rw [hRdec]
          rw [hRtail]
        rw [simplifyPath_eq (L ++ R.tail) tol]
        rw [if_neg (by omega : ¬(L ++ R.tail).length ≤ 2)]
        rw [if_pos (show sqrtGt (findMax (L ++ R.tail)).1 tol ∧
            1 ≤ (findMax (L ++ R.tail)).2 ∧
            (findMax (L ++ R.tail)).2 + 2 ≤ (L ++ R.tail).length by
          refine ⟨?_, ?_, ?_⟩
          · rw [hfmO]; exact hD1 ▸ hgt
          · rw [hfmO]; omega
          · rw [hfmO, hOlen]; simp; omega)]
        rw [hOtake, hOdrop, hIHA, hIHB]
      · rw [if_neg hc]
        exact simplifyPath_of_short tol (by simp)

/-! ## Claims C3, C4, C5 -/

/-- C4: for every point sequence and every tolerance in the input contract
(`t ≥ 0`), `simplifyPath` returns a subsequence of the input whose first and
last elements are the input's first and last elements, and inputs of length
at most 2 are returned unchanged. -/
theorem simplify_subsequence_endpoints (P : List Pt) (t : ℚ) (ht : 0 ≤ t) :
    (simplifyPath P t).Sublist P ∧
    (simplifyPath P t).headD d0 = P.headD d0 ∧
    (simplifyPath P t).getLastD d0 = P.getLastD d0 ∧
    (P.length ≤ 2 → simplifyPath P t = P) := by
  obtain ⟨h1, h2, h3, -⟩ := simplify_basic P.length P t le_rfl
  exact ⟨h1, h2, h3, fun hQ => simplifyPath_of_short t hQ⟩

theorem simplify_subsequence_endpoints_witness :
    (0 ≤ (5 : ℚ)) ∧
    ((simplifyPath [⟨0, 0⟩, ⟨1, 5⟩, ⟨2, 0⟩] 5).Sublist [⟨0, 0⟩, ⟨1, 5⟩, ⟨2, 0⟩] ∧
      (simplifyPath [⟨0, 0⟩, ⟨1, 5⟩, ⟨2, 0⟩] 5).headD d0 =
        ([⟨0, 0⟩, ⟨1, 5⟩, ⟨2, 0⟩] : List Pt).headD d0 ∧
      (simplifyPath [⟨0, 0⟩, ⟨1, 5⟩, ⟨2, 0⟩] 5).getLastD d0 =
        ([⟨0, 0⟩, ⟨1, 5⟩, ⟨2, 0⟩] : List Pt).getLastD d0 ∧
      (([⟨0, 0⟩, ⟨1, 5⟩, ⟨2, 0⟩] : List Pt).length ≤ 2 →
        simplifyPath [⟨0, 0⟩, ⟨1, 5⟩, ⟨2, 0⟩] 5 = [⟨0, 0⟩, ⟨1, 5⟩, ⟨2, 0⟩])) :=
  ⟨by norm_num, simplify_subsequence_endpoints [⟨0, 0⟩, ⟨1, 5⟩, ⟨2, 0⟩] 5 (by norm_num)⟩

/-- C3: simplification is monotone in the tolerance — for tolerances
`0 ≤ t1 < t2` the result at `t2` never has more points than the result at
`t1`. -/
theorem simplify_monotone_in_tolerance (P : List Pt) (t1 t2 : ℚ)
    (ht : 0 ≤ t1) (h12 : t1 < t2) :
    (simplifyPath P t2).length ≤ (simplifyPath P t1).length :=
  simplify_length_anti P.length P t1 t2 le_rfl (le_of_lt h12)

theorem simplify_monotone_in_tolerance_witness :
    (0 ≤ (1 : ℚ)) ∧ ((1 : ℚ) < 9) ∧
    (simplifyPath [⟨0, 0⟩, ⟨1, 5⟩, ⟨2, 0⟩, ⟨3, 5⟩, ⟨4, 0⟩] 9).length ≤
      (simplifyPath [⟨0, 0⟩, ⟨1, 5⟩, ⟨2, 0⟩, ⟨3, 5⟩, ⟨4, 0⟩] 1).length :=
  ⟨by norm_num, by norm_num,
    simplify_monotone_in_tolerance [⟨0, 0⟩, ⟨1, 5⟩, ⟨2, 0⟩, ⟨3, 5⟩, ⟨4, 0⟩] 1 9
      (by norm_num) (by norm_num)⟩

/-- C5: simplification is idempotent — re-simplifying an already simplified
sequence with the same tolerance (in the input contract `t ≥ 0`) returns it
unchanged. -/
theorem simplify_idempotent (P : List Pt) (t : ℚ) (ht : 0 ≤ t) :
    simplifyPath (simplifyPath P t) t = simplifyPath P t :=
  simplify_idem_aux P.length P t le_rfl ht

theorem simplify_idempotent_witness :
    (0 ≤ (3 : ℚ)) ∧
    simplifyPath (simplifyPath [⟨0, 0⟩, ⟨1, 5⟩, ⟨2, 0⟩, ⟨3, 5⟩, ⟨4, 0⟩] 3) 3 =
      simplifyPath [⟨0, 0⟩, ⟨1, 5⟩, ⟨2, 0⟩, ⟨3, 5⟩, ⟨4, 0⟩] 3 :=
  ⟨by norm_num,
    simplify_idempotent [⟨0, 0⟩, ⟨1, 5⟩, ⟨2, 0⟩, ⟨3, 5⟩, ⟨4, 0⟩] 3 (by norm_num)⟩

/-! ## Path-builder lemmas and claims C6, C10, C2 -/

/-- Squared length of edge `i` of a polygon (edge from vertex `i` to vertex
`(i+1) mod n`); the source's `edgeLength` is its square root. -/
def edgeLenSq (ps : List Pt) (i : Nat) : ℚ :=
  ((ps.getD ((i + 1) % ps.length) d0).x - (ps.getD i d0).x) *
    ((ps.getD ((i + 1) % ps.length) d0).x - (ps.getD i d0).x) +
  ((ps.getD ((i + 1) % ps.length) d0).y - (ps.getD i d0).y) *
    ((ps.getD ((i + 1) % ps.length) d0).y - (ps.getD i d0).y)

/-- The straight-line polygon closure the spec's section 8 compares against:
a move to the first vertex, a line to each subsequent vertex and back to the
first, and a close command. -/
def straightLineClosure (ps : List Pt) : List PathCmd :=
  .move (ps.headD d0) ::
    ((ps.tail.map PathCmd.line ++ [PathCmd.line (ps.headD d0)]) ++ [PathCmd.close])

theorem map_getD_range (l : List Pt) :
    (List.range l.length).map (fun i => l.getD i d0) = l := by
  apply List.ext_getElem
  · simp
  · intro i h1 h2
    simp [List.getD_eq_getElem?_getD, List.getElem?_eq_getElem h2]

theorem range_map_next (ps : List Pt) (h : 1 ≤ ps.length) :
    (List.range ps.length).map (fun i => ps.getD ((i + 1) % ps.length) d0) =
      ps.tail ++ [ps.headD d0] := by
  apply List.ext_getElem
  · simp [List.length_tail]; omega
  · intro i h1 h2
    simp only [List.getElem_map, List.getElem_range]
    by_cases hi : i < ps.length - 1
    · rw [Nat.mod_eq_of_lt (by omega)]
      rw [List.getElem_append_left (by simp [List.length_tail]; omega)]
      rw [List.getElem_tail]
      rw [List.getD_eq_getElem?_getD, List.getElem?_eq_getElem (by omega)]
      rfl
    · have hieq : i = ps.length - 1 := by
        simp only [List.length_map, List.length_range] at h1
        omega
      subst hieq
      have hmod : (ps.length - 1 + 1) % ps.length = 0 := by
        rw [show ps.length - 1 + 1 = ps.length by omega]
        exact Nat.mod_self _
      rw [hmod]
      rw [List.getElem_append_right (by simp [List.length_tail])]
      have hd : ps.getD 0 d0 = ps.headD d0 := by cases ps <;> rfl
      rw [hd]
      simp [List.length_tail]

theorem filterMap_eq_map_of_forall {β γ : Type} (l : List β) (f : β → Option γ)
    (g : β → γ) (h : ∀ x ∈ l, f x = some (g x)) : l.filterMap f = l.map g := by
  induction l with
  | nil => rfl
  | cons a t ih =>
    rw [List.filterMap_cons_some (h a (by simp)), List.map_cons,
      ih fun x hx => h x (by simp [hx])]

/-- C6: with every curve flag false and all edges of length at least 1, the
mixed-path builder emits exactly the straight-line polygon closure, with no
quadratic-curve command. -/
theorem mixed_path_all_straight (ps : List Pt) (flags : List Bool) (sag : ℚ)
    (h3 : 3 ≤ ps.length)
    (hflags : ∀ i, flags.getD i false = false)
    (hlen : ∀ i, i < ps.length → 1 ≤ edgeLenSq ps i) :
    polygonToMixedPath ps flags sag = straightLineClosure ps ∧
    ∀ c t, PathCmd.quad c t ∉ polygonToMixedPath ps flags sag := by
  have hmain : polygonToMixedPath ps flags sag = straightLineClosure ps := by
    have hcmds : (List.range ps.length).filterMap
        (mixedEdgeCmd ps (centroidOf ps) flags sag) =
        (List.range ps.length).map
          (fun i => PathCmd.line (ps.getD ((i + 1) % ps.length) d0)) := by
      apply filterMap_eq_map_of_forall
      intro i hi
      have hi' : i < ps.length := List.mem_range.mp hi
      have h1 : 1 ≤ edgeLenSq ps i := hlen i hi'
      unfold edgeLenSq at h1
      simp only [mixedEdgeCmd, hflags i]
      rw [if_neg (not_lt.mpr h1)]
      simp
    simp only [polygonToMixedPath]
    rw [if_neg (by omega)]
    unfold straightLineClosure
    rw [hcmds,
      show (fun i => PathCmd.line (ps.getD ((i + 1) % ps.length) d0)) =
        PathCmd.line ∘ (fun i => ps.getD ((i + 1) % ps.length) d0) from rfl,
      ← List.map_map, range_map_next ps (by omega), List.map_append]
    rfl
  refine ⟨hmain, ?_⟩
  intro c t hmem
  rw [hmain] at hmem
  unfold straightLineClosure at hmem
  rcases List.mem_cons.mp hmem with hq | hq
  · exact PathCmd.noConfusion hq
  rcases List.mem_append.mp hq with hq | hq
  · rcases List.mem_append.mp hq with hq | hq
    · obtain ⟨x, -, hx⟩ := List.mem_map.mp hq
      exact PathCmd.noConfusion hx
    · rcases List.mem_singleton.mp hq with hx
      exact PathCmd.noConfusion hx
  · rcases List.mem_singleton.mp hq with hx
    exact PathCmd.noConfusion hx

theorem mixed_path_all_straight_witness :
    (3 ≤ ([⟨0, 0⟩, ⟨100, 0⟩, ⟨0, 100⟩] : List Pt).length) ∧
    (polygonToMixedPath [⟨0, 0⟩, ⟨100, 0⟩, ⟨0, 100⟩] [false, false, false] (1 / 20) =
        straightLineClosure [⟨0, 0⟩, ⟨100, 0⟩, ⟨0, 100⟩] ∧
      ∀ c t, PathCmd.quad c t ∉
        polygonToMixedPath [⟨0, 0⟩, ⟨100, 0⟩, ⟨0, 100⟩] [false, false, false] (1 / 20)) :=
  ⟨by norm_num,
    mixed_path_all_straight [⟨0, 0⟩, ⟨100, 0⟩, ⟨0, 100⟩] [false, false, false] (1 / 20)
      (by norm_num)
      (by intro i
          match i with
          | 0 => rfl
          | 1 => rfl
          | 2 => rfl
          | (n + 3) => rfl)
      (by intro i hi
          have hi3 : i < 3 := by simpa using hi
          interval_cases i <;> norm_num [edgeLenSq, d0])⟩

/-- C10: both path builders return the empty command sequence (the empty
path string in the source) on any input of fewer than 3 points, for every
sag value and curve-flag array. -/
theorem path_builders_empty_on_degenerate (ps : List Pt) (flags : List Bool)
    (sag : ℚ) (h : ps.length < 3) :
    polygonToMixedPath ps flags sag = [] ∧ polygonToCurvedPath ps sag = [] := by
  unfold polygonToMixedPath polygonToCurvedPath
  rw [if_pos h, if_pos h]
  exact ⟨rfl, rfl⟩

theorem path_builders_empty_on_degenerate_witness :
    (([⟨0, 0⟩, ⟨50, 50⟩] : List Pt).length < 3) ∧
    (polygonToMixedPath [⟨0, 0⟩, ⟨50, 50⟩] [true] (1 / 20) = [] ∧
      polygonToCurvedPath [⟨0, 0⟩, ⟨50, 50⟩] (2 / 25) = []) :=
  ⟨by norm_num,
    path_builders_empty_on_degenerate [⟨0, 0⟩, ⟨50, 50⟩] [true] _ (by norm_num) |>.1,
    (path_builders_empty_on_degenerate [⟨0, 0⟩, ⟨50, 50⟩] [] (2 / 25)
      (by norm_num)).2⟩

end ShadeSail

namespace ShadeSail

/-- Midpoint of edge `i` of a polygon. -/
def edgeMidpoint (ps : List Pt) (i : Nat) : Pt :=
  ⟨((ps.getD i d0).x + (ps.getD ((i + 1) % ps.length) d0).x) / 2,
   ((ps.getD i d0).y + (ps.getD ((i + 1) % ps.length) d0).y) / 2⟩

/-- C2 (amended): for a strictly positive sag and a centroid not on the
chord's line, each curved edge of squared length at least 1 produces exactly
one quadratic-curve command, identical in both builders; its control point
sits at the edge midpoint, offset perpendicularly to the chord with squared
offset `(2 * (edgeLength * sag))^2`, on the same side of the chord as the
polygon centroid. -/
theorem curved_edge_inward_control (ps : List Pt) (flags : List Bool) (sag : ℚ)
    (i : Nat) (h3 : 3 ≤ ps.length) (hi : i < ps.length)
    (hflag : flags.getD i false = true)
    (hlen : 1 ≤ edgeLenSq ps i)
    (hsag : 0 < sag)
    (hcent : cross2 (ps.getD i d0) (ps.getD ((i + 1) % ps.length) d0)
      (centroidOf ps) ≠ 0) :
    ∃ cp : Pt,
      mixedEdgeCmd ps (centroidOf ps) flags sag i =
          some (.quad cp (ps.getD ((i + 1) % ps.length) d0)) ∧
      curvedEdgeCmd ps (centroidOf ps) sag i =
          some (.quad cp (ps.getD ((i + 1) % ps.length) d0)) ∧
      (cp.x - (edgeMidpoint ps i).x) *
          ((ps.getD ((i + 1) % ps.length) d0).x - (ps.getD i d0).x) +
        (cp.y - (edgeMidpoint ps i).y) *
          ((ps.getD ((i + 1) % ps.length) d0).y - (ps.getD i d0).y) = 0 ∧
      distSq cp (edgeMidpoint ps i) = (2 * sag) ^ 2 * edgeLenSq ps i ∧
      sameSideOfChord (ps.getD i d0) (ps.getD ((i + 1) % ps.length) d0) cp
        (centroidOf ps) := by
  unfold edgeMidpoint
  unfold edgeLenSq at hlen ⊢
  simp only [mixedEdgeCmd, curvedEdgeCmd, hflag, if_true]
  set cur := ps.getD i d0 with hcur
  set nxt := ps.getD ((i + 1) % ps.length) d0 with hnxt
  set c := centroidOf ps with hc
  have hlenpos : 0 < (nxt.x - cur.x) * (nxt.x - cur.x) +
      (nxt.y - cur.y) * (nxt.y - cur.y) := lt_of_lt_of_le one_pos hlen
  have hcond : ¬((nxt.x - cur.x) * (nxt.x - cur.x) +
      (nxt.y - cur.y) * (nxt.y - cur.y) < 1) := not_lt.mpr hlen
  simp only [hcond, if_false]
  by_cases hpf : ((cur.x + nxt.x) / 2 - c.x) * -(nxt.y - cur.y) +
      ((cur.y + nxt.y) / 2 - c.y) * (nxt.x - cur.x) < 0
  · simp only [hpf, if_true]
    have hX : 0 < cross2 cur nxt c := by
      unfold cross2; nlinarith [hpf]
    refine ⟨⟨(cur.x + nxt.x) / 2 + 2 * sag * -(nxt.y - cur.y),
        (cur.y + nxt.y) / 2 + 2 * sag * (nxt.x - cur.x)⟩, rfl, rfl, by ring, ?_, ?_⟩
    · unfold distSq; ring
    · unfold sameSideOfChord
      have hcp : cross2 cur nxt
          ⟨(cur.x + nxt.x) / 2 + 2 * sag * -(nxt.y - cur.y),
           (cur.y + nxt.y) / 2 + 2 * sag * (nxt.x - cur.x)⟩ =
          2 * sag * ((nxt.x - cur.x) * (nxt.x - cur.x) +
            (nxt.y - cur.y) * (nxt.y - cur.y)) := by
        unfold cross2; ring
      rw [hcp]
      exact mul_pos (mul_pos (by linarith) hlenpos) hX
  · simp only [hpf, if_false]
    push_neg at hpf
    have hXle : cross2 cur nxt c ≤ 0 := by
      unfold cross2; nlinarith [hpf]
    have hX : cross2 cur nxt c < 0 := lt_of_le_of_ne hXle hcent
    refine ⟨⟨(cur.x + nxt.x) / 2 + 2 * sag * (nxt.y - cur.y),
        (cur.y + nxt.y) / 2 + 2 * sag * -(nxt.x - cur.x)⟩, rfl, rfl, by ring, ?_, ?_⟩
    · unfold distSq; ring
    · unfold sameSideOfChord
      have hcp : cross2 cur nxt
          ⟨(cur.x + nxt.x) / 2 + 2 * sag * (nxt.y - cur.y),
           (cur.y + nxt.y) / 2 + 2 * sag * -(nxt.x - cur.x)⟩ =
          -(2 * sag * ((nxt.x - cur.x) * (nxt.x - cur.x) +
            (nxt.y - cur.y) * (nxt.y - cur.y))) := by
        unfold cross2; ring
      rw [hcp]
      have hpos : 0 < 2 * sag * ((nxt.x - cur.x) * (nxt.x - cur.x) +
          (nxt.y - cur.y) * (nxt.y - cur.y)) := mul_pos (by linarith) hlenpos
      exact mul_pos_of_neg_of_neg (by linarith) hX

end ShadeSail

namespace ShadeSail

/-- C2 counterexample: for the square and sagRatio `-0.05` the generated
control point `(50, -10)` of edge 0 lies on the opposite side of the chord
from the centroid `(50, 50)` — the claim's quantification over every
sagRatio fails. -/
theorem curved_edge_inward_control_cex :
    mixedEdgeCmd [⟨0, 0⟩, ⟨100, 0⟩, ⟨100, 100⟩, ⟨0, 100⟩]
        (centroidOf [⟨0, 0⟩, ⟨100, 0⟩, ⟨100, 100⟩, ⟨0, 100⟩])
        [true, true, true, true] (-(1 / 20)) 0 =
      some (.quad ⟨50, -10⟩ ⟨100, 0⟩) ∧
    ¬ sameSideOfChord ⟨0, 0⟩ ⟨100, 0⟩ ⟨50, -10⟩
        (centroidOf [⟨0, 0⟩, ⟨100, 0⟩, ⟨100, 100⟩, ⟨0, 100⟩]) := by
  have hc : centroidOf [(⟨0, 0⟩ : Pt), ⟨100, 0⟩, ⟨100, 100⟩, ⟨0, 100⟩] = ⟨50, 50⟩ := by
    norm_num [centroidOf]
  rw [hc]
  constructor
  · norm_num [mixedEdgeCmd, d0]
  · norm_num [sameSideOfChord, cross2]

theorem curved_edge_inward_control_witness :
    (3 ≤ ([⟨0, 0⟩, ⟨100, 0⟩, ⟨100, 100⟩, ⟨0, 100⟩] : List Pt).length) ∧
    (0 < (2 / 25 : ℚ)) ∧
    ∃ cp : Pt,
      mixedEdgeCmd [⟨0, 0⟩, ⟨100, 0⟩, ⟨100, 100⟩, ⟨0, 100⟩]
          (centroidOf [⟨0, 0⟩, ⟨100, 0⟩, ⟨100, 100⟩, ⟨0, 100⟩])
          [true, true, true, true] (2 / 25) 0 =
          some (.quad cp (([⟨0, 0⟩, ⟨100, 0⟩, ⟨100, 100⟩, ⟨0, 100⟩] : List Pt).getD
            ((0 + 1) % ([⟨0, 0⟩, ⟨100, 0⟩, ⟨100, 100⟩, ⟨0, 100⟩] : List Pt).length) d0)) ∧
      curvedEdgeCmd [⟨0, 0⟩, ⟨100, 0⟩, ⟨100, 100⟩, ⟨0, 100⟩]
          (centroidOf [⟨0, 0⟩, ⟨100, 0⟩, ⟨100, 100⟩, ⟨0, 100⟩]) (2 / 25) 0 =
          some (.quad cp (([⟨0, 0⟩, ⟨100, 0⟩, ⟨100, 100⟩, ⟨0, 100⟩] : List Pt).getD
            ((0 + 1) % ([⟨0, 0⟩, ⟨100, 0⟩, ⟨100, 100⟩, ⟨0, 100⟩] : List Pt).length) d0)) ∧
      (cp.x - (edgeMidpoint [⟨0, 0⟩, ⟨100, 0⟩, ⟨100, 100⟩, ⟨0, 100⟩] 0).x) *
          ((([⟨0, 0⟩, ⟨100, 0⟩, ⟨100, 100⟩, ⟨0, 100⟩] : List Pt).getD
            ((0 + 1) % ([⟨0, 0⟩, ⟨100, 0⟩, ⟨100, 100⟩, ⟨0, 100⟩] : List Pt).length) d0).x -
            (([⟨0, 0⟩, ⟨100, 0⟩, ⟨100, 100⟩, ⟨0, 100⟩] : List Pt).getD 0 d0).x) +
        (cp.y - (edgeMidpoint [⟨0, 0⟩, ⟨100, 0⟩, ⟨100, 100⟩, ⟨0, 100⟩] 0).y) *
          ((([⟨0, 0⟩, ⟨100, 0⟩, ⟨100, 100⟩, ⟨0, 100⟩] : List Pt).getD
            ((0 + 1) % ([⟨0, 0⟩, ⟨100, 0⟩, ⟨100, 100⟩, ⟨0, 100⟩] : List Pt).length) d0).y -
            (([⟨0, 0⟩, ⟨100, 0⟩, ⟨100, 100⟩, ⟨0, 100⟩] : List Pt).getD 0 d0).y) = 0 ∧
      distSq cp (edgeMidpoint [⟨0, 0⟩, ⟨100, 0⟩, ⟨100, 100⟩, ⟨0, 100⟩] 0) =
        (2 * (2 / 25)) ^ 2 * edgeLenSq [⟨0, 0⟩, ⟨100, 0⟩, ⟨100, 100⟩, ⟨0, 100⟩] 0 ∧
      sameSideOfChord (([⟨0, 0⟩, ⟨100, 0⟩, ⟨100, 100⟩, ⟨0, 100⟩] : List Pt).getD 0 d0)
        (([⟨0, 0⟩, ⟨100, 0⟩, ⟨100, 100⟩, ⟨0, 100⟩] : List Pt).getD
          ((0 + 1) % ([⟨0, 0⟩, ⟨100, 0⟩, ⟨100, 100⟩, ⟨0, 100⟩] : List Pt).length) d0) cp
        (centroidOf [⟨0, 0⟩, ⟨100, 0⟩, ⟨100, 100⟩, ⟨0, 100⟩]) :=
  ⟨by norm_num, by norm_num,
    curved_edge_inward_control [⟨0, 0⟩, ⟨100, 0⟩, ⟨100, 100⟩, ⟨0, 100⟩]
      [true, true, true, true] (2 / 25) 0 (by norm_num) (by norm_num) rfl
      (by norm_num [edgeLenSq, d0]) (by norm_num)
      (by norm_num [cross2, centroidOf, d0])⟩

end ShadeSail

namespace ShadeSail

/-- C1 counterexample: with the captured points
`[(0,0), (50,-20), (100,0), (50,80)]` the candidate `(5,5)` auto-closes in
the source (it is within 15 pixels of the first point) although the segment
from the last captured point to it intersects no non-adjacent prior edge —
so auto-closure is not triggered by segment intersection. -/
theorem auto_close_by_intersection_cex :
    handleMouseDown [⟨0, 0⟩, ⟨50, -20⟩, ⟨100, 0⟩, ⟨50, 80⟩] ⟨5, 5⟩ =
      .closed [⟨0, 0⟩, ⟨50, -20⟩, ⟨100, 0⟩, ⟨50, 80⟩] ∧
    ¬ wouldAutoCloseSpec ⟨5, 5⟩ [⟨0, 0⟩, ⟨50, -20⟩, ⟨100, 0⟩, ⟨50, 80⟩] := by
  constructor
  · norm_num [handleMouseDown, distSq, d0]
  · rintro ⟨-, j, hj, hint⟩
    have hj2 : j < 2 := by simpa using hj
    interval_cases j
    · norm_num [segmentsIntersect, d0] at hint
    · norm_num [segmentsIntersect, d0] at hint

/-- C1 (amended): during interactive capture the polygon auto-closes iff at
least 3 points have been captured and the candidate lies within 15 pixels of
the first captured point (squared distance at most 225); in particular the
freehand points `[(0,0), (50,-20), (100,0), (50,80)]` fed one at a time never
auto-close, and a 5th point `(5,5)` near the first point closes the polygon
regardless of any segment intersection. -/
theorem auto_close_by_proximity :
    (∀ (history : List Pt) (candidate : Pt),
      handleMouseDown history candidate = .closed history ↔
        3 ≤ history.length ∧ distSq candidate (history.headD d0) ≤ 225) ∧
    captureRun [⟨0, 0⟩, ⟨50, -20⟩, ⟨100, 0⟩, ⟨50, 80⟩] =
      ([⟨0, 0⟩, ⟨50, -20⟩, ⟨100, 0⟩, ⟨50, 80⟩], false) ∧
    captureRun [⟨0, 0⟩, ⟨50, -20⟩, ⟨100, 0⟩, ⟨50, 80⟩, ⟨5, 5⟩] =
      ([⟨0, 0⟩, ⟨50, -20⟩, ⟨100, 0⟩, ⟨50, 80⟩], true) := by
  refine ⟨?_, ?_, ?_⟩
  · intro history candidate
    unfold handleMouseDown
    split
    · rename_i h
      exact ⟨fun _ => h, fun _ => rfl⟩
    · rename_i h
      exact ⟨fun he => CaptureResult.noConfusion he, fun hc => absurd hc h⟩
  · norm_num [captureRun, handleMouseDown, distSq, d0]
  · norm_num [captureRun, handleMouseDown, distSq, d0]

end ShadeSail

namespace ShadeSail

/-- C7: on an undistorted axis-aligned rectangle of positive width and
height, the perspective estimator is the identity — unit scales, zero skew,
and the object centred at the rectangle's centre. -/
theorem perspective_identity (l t w h : ℚ) (hw : 0 < w) (hh : 0 < h) :
    applyPerspectiveTransform ⟨l, t⟩ ⟨l + w, t⟩ ⟨l, t + h⟩ ⟨l + w, t + h⟩ w h =
      ⟨l + w / 2, t + h / 2, 1, 1, 0, 0⟩ := by
  unfold applyPerspectiveTransform
  have hwabs : |l + w - l| = w := by
    rw [show l + w - l = w by ring]
    exact abs_of_pos hw
  have hhabs : |t + h - t| = h := by
    rw [show t + h - t = h by ring]
    exact abs_of_pos hh
  simp only [PerspectiveResult.mk.injEq, hwabs, hhabs]
  refine ⟨by ring, by ring, ?_, ?_, ?_, ?_⟩
  · rw [show (w + w) / (2 * w) = 1 by field_simp; ring]
    norm_num
  · rw [show (h + h) / (2 * h) = 1 by field_simp; ring]
    norm_num
  · rw [show l + w - l - (l + w - l) = 0 by ring, zero_div]; ring
  · rw [show l - l - (l + w - (l + w)) = 0 by ring, zero_div]; ring

theorem perspective_identity_witness :
    (0 < (2 : ℚ)) ∧ (0 < (3 : ℚ)) ∧
    applyPerspectiveTransform ⟨10, 20⟩ ⟨10 + 2, 20⟩ ⟨10, 20 + 3⟩ ⟨10 + 2, 20 + 3⟩ 2 3 =
      ⟨10 + 2 / 2, 20 + 3 / 2, 1, 1, 0, 0⟩ :=
  ⟨by norm_num, by norm_num, perspective_identity 10 20 2 3 (by norm_num) (by norm_num)⟩

/-- C8: when simplification leaves fewer than 3 points, or the closed
polygon's area is below the 500 threshold, `createSailFromDrawnPath` aborts:
no sail is created and the whole canvas state — in particular the drawing
session's captured points — is returned unchanged. -/
theorem insufficient_geometry_aborts (st : CanvasState) (tol : ℚ)
    (h : (simplifyPath st.drawnPoints tol).length < 3 ∨
      calculatePolygonArea (closeIfOpen
        (if 12 < (simplifyPath st.drawnPoints tol).length
          then simplifyPath st.drawnPoints (tol * 2)
          else simplifyPath st.drawnPoints tol) tol) < 500) :
    createSailFromDrawnPath st tol = st := by
  unfold createSailFromDrawnPath
  by_cases h0 : st.drawnPoints.length < 3
  · rw [if_pos h0]
  · rw [if_neg h0]
    by_cases h1 : (simplifyPath st.drawnPoints tol).length < 3
    · rw [if_pos h1]
    · rw [if_neg h1]
      rcases h with h | h
      · exact absurd h h1
      · rw [if_pos h]

theorem insufficient_geometry_aborts_witness :
    ((simplifyPath (CanvasState.mk [] [⟨0, 0⟩, ⟨9, 0⟩]).drawnPoints 5).length < 3 ∨
      calculatePolygonArea (closeIfOpen
        (if 12 < (simplifyPath (CanvasState.mk [] [⟨0, 0⟩, ⟨9, 0⟩]).drawnPoints 5).length
          then simplifyPath (CanvasState.mk [] [⟨0, 0⟩, ⟨9, 0⟩]).drawnPoints (5 * 2)
          else simplifyPath (CanvasState.mk [] [⟨0, 0⟩, ⟨9, 0⟩]).drawnPoints 5) 5) < 500) ∧
    createSailFromDrawnPath (CanvasState.mk [] [⟨0, 0⟩, ⟨9, 0⟩]) 5 =
      CanvasState.mk [] [⟨0, 0⟩, ⟨9, 0⟩] := by
  have hshort : simplifyPath ([⟨0, 0⟩, ⟨9, 0⟩] : List Pt) 5 = [⟨0, 0⟩, ⟨9, 0⟩] :=
    simplifyPath_of_short 5 (by norm_num)
  have hh : (simplifyPath (CanvasState.mk [] [⟨0, 0⟩, ⟨9, 0⟩]).drawnPoints 5).length < 3 ∨
      calculatePolygonArea (closeIfOpen
        (if 12 < (simplifyPath (CanvasState.mk [] [⟨0, 0⟩, ⟨9, 0⟩]).drawnPoints 5).length
          then simplifyPath (CanvasState.mk [] [⟨0, 0⟩, ⟨9, 0⟩]).drawnPoints (5 * 2)
          else simplifyPath (CanvasState.mk [] [⟨0, 0⟩, ⟨9, 0⟩]).drawnPoints 5) 5) < 500 := by
    left
    show (simplifyPath [⟨0, 0⟩, ⟨9, 0⟩] 5).length < 3
    rw [hshort]
    norm_num
  exact ⟨hh, insufficient_geometry_aborts (CanvasState.mk [] [⟨0, 0⟩, ⟨9, 0⟩]) 5 hh⟩

/-- C9: rebuilding the edge profile of an existing sail replaces it with a
sail whose placement (`left`, `top`, `angle`, `scaleX`, `scaleY`) and stored
`sailPoints`, `sailType` and `shapeType` equal the original's; only the path
geometry and the `curvedEdges` array change, the other sails and the drawing
session are untouched. -/
theorem modify_edges_preserves_placement (st : CanvasState) (k : Nat)
    (ne : List Bool) (hk : k < st.sails.length) :
    ∃ st2 ns, modifyExistingSailEdges st (some k) ne = some (st2, ns) ∧
      ns.left = (st.sails.get ⟨k, hk⟩).left ∧
      ns.top = (st.sails.get ⟨k, hk⟩).top ∧
      ns.angle = (st.sails.get ⟨k, hk⟩).angle ∧
      ns.scaleX = (st.sails.get ⟨k, hk⟩).scaleX ∧
      ns.scaleY = (st.sails.get ⟨k, hk⟩).scaleY ∧
      ns.sailPoints = (st.sails.get ⟨k, hk⟩).sailPoints ∧
      ns.sailType = (st.sails.get ⟨k, hk⟩).sailType ∧
      ns.shapeType = (st.sails.get ⟨k, hk⟩).shapeType ∧
      ns.curvedEdges = ne ∧
      ns.pathData = polygonToMixedPath (st.sails.get ⟨k, hk⟩).sailPoints ne (1 / 20) ∧
      st2.sails = st.sails.eraseIdx k ++ [ns] ∧
      st2.drawnPoints = st.drawnPoints := by
  simp only [modifyExistingSailEdges, hk, if_true, List.getElem?_eq_getElem hk]
  exact ⟨_, _, rfl, rfl, rfl, rfl, rfl, rfl, rfl, rfl, rfl, rfl, rfl, rfl, rfl⟩

theorem modify_edges_preserves_placement_witness :
    (0 < (CanvasState.mk
      [Sail.mk [] 1 2 3 4 5 [⟨0, 0⟩, ⟨9, 0⟩, ⟨0, 9⟩] [true, true, true] .drawn none]
      []).sails.length) ∧
    ∃ st2 ns, modifyExistingSailEdges (CanvasState.mk
        [Sail.mk [] 1 2 3 4 5 [⟨0, 0⟩, ⟨9, 0⟩, ⟨0, 9⟩] [true, true, true] .drawn none]
        []) (some 0) [false, true, false] = some (st2, ns) ∧
      ns.left = 1 ∧ ns.top = 2 ∧ ns.angle = 3 ∧ ns.scaleX = 4 ∧ ns.scaleY = 5 ∧
      ns.sailPoints = [⟨0, 0⟩, ⟨9, 0⟩, ⟨0, 9⟩] ∧
      ns.sailType = .drawn ∧
      ns.curvedEdges = [false, true, false] := by
  have hk : 0 < (CanvasState.mk
      [Sail.mk [] 1 2 3 4 5 [⟨0, 0⟩, ⟨9, 0⟩, ⟨0, 9⟩] [true, true, true] .drawn none]
      []).sails.length := by norm_num
  obtain ⟨st2, ns, heq, hl, ht, ha, hx, hy, hp, hty, -, hce, -, -, -⟩ :=
    modify_edges_preserves_placement (CanvasState.mk
      [Sail.mk [] 1 2 3 4 5 [⟨0, 0⟩, ⟨9, 0⟩, ⟨0, 9⟩] [true, true, true] .drawn none]
      []) 0 [false, true, false] hk
  exact ⟨hk, st2, ns, heq, hl, ht, ha, hx, hy, hp, hty, hce⟩

end ShadeSail
